import Mathlib

/-!
Verification of the document-QA pipeline (generator `script.py`, scorer
`evaluate.py`) against its natural-language specification.

Modelling conventions
- Python strings are modelled as `List Char`; "byte-for-byte" substring
  facts become `List.IsInfix` facts on character lists.
- JSON scalar values (the only values the analysed code paths inspect) are
  modelled by `JVal`; a parsed candidate item is a `JItem`, either a JSON
  object with scalar fields or a bare scalar.  JSON numbers are modelled as
  integers (the code only compares them against small integer thresholds).
- Fallible Python code (code that can raise) is modelled in `Except PyErr`.
- The LLM provider and the standard-library JSON parser are external
  collaborators; they are modelled as explicit function parameters.
-/

namespace DocQA

/-- Python exceptions that the modelled code paths can raise; the payload is
the exception's `str(e)` message text. -/
inductive PyErr where
  | attributeError : List Char → PyErr
  | valueError : List Char → PyErr
  | typeError : List Char → PyErr
deriving DecidableEq, Repr

/-- `str(e)` for a modelled Python exception. -/
def pyErrText : PyErr → List Char
  | .attributeError m => m
  | .valueError m => m
  | .typeError m => m

/-! ### JSON escape repair (`script.py`, `repair_invalid_json_escapes`) -/

/-- The `valid_escapes` set of `repair_invalid_json_escapes`. -/
def validEscapeChars : List Char := ['"', '\\', '/', 'b', 'f', 'n', 'r', 't']

/-- Membership in the hex-digit alphabet used by `repair_invalid_json_escapes`
(`c in "0123456789abcdefABCDEF"`). -/
def isJsonHexDigit (c : Char) : Bool := "0123456789abcdefABCDEF".toList.contains c

/-- The lookahead test of the `\u` branch of `repair_invalid_json_escapes`:
`idx + 5 < len(raw_json)` (at least four characters follow the `u`) and the
four characters `raw_json[idx+2:idx+6]` are all hexadecimal digits. -/
def fourHexHead : List Char → Bool
  | h1 :: h2 :: h3 :: h4 :: _ =>
    isJsonHexDigit h1 && isJsonHexDigit h2 && isJsonHexDigit h3 && isJsonHexDigit h4
  | _ => false

/-- Character-level embedding of `repair_invalid_json_escapes` (`script.py`
lines 81-119).  The Python loop walks the string with an index; here the
already-scanned head is emitted and the scan continues on the tail, which is
the same traversal.  On an illegal escape the loop emits a doubled backslash
and advances only one position past the backslash, so the follower is
re-examined (`repair_invalid_json_escapes rest` with `rest = n :: rest2`). -/
def repair_invalid_json_escapes : List Char → List Char
  | [] => []
  | [c] => if c ≠ '\\' then [c] else ['\\', '\\']
  | c :: n :: rest2 =>
    if c ≠ '\\' then c :: repair_invalid_json_escapes (n :: rest2)
    else if validEscapeChars.contains n then
      c :: n :: repair_invalid_json_escapes rest2
    else if n == 'u' && fourHexHead rest2 then
      c :: n :: (rest2.take 4 ++ repair_invalid_json_escapes (rest2.drop 4))
    else
      '\\' :: '\\' :: repair_invalid_json_escapes (n :: rest2)
  termination_by l => l.length
  decreasing_by all_goals simp <;> omega

/-- A text in which every backslash begins a legal JSON escape: a backslash
followed by one of the eight single-character escapes, or a backslash-u
escape followed by four hexadecimal digits.  This is the hypothesis predicate
of the repair-safety property (the claim's condition, not program code). -/
def onlyLegalJsonEscapes : List Char → Bool
  | [] => true
  | [c] => c ≠ '\\'
  | c :: n :: rest2 =>
    if c ≠ '\\' then onlyLegalJsonEscapes (n :: rest2)
    else if validEscapeChars.contains n then onlyLegalJsonEscapes rest2
    else if n == 'u' && fourHexHead rest2 then onlyLegalJsonEscapes (rest2.drop 4)
    else false
  termination_by l => l.length
  decreasing_by all_goals simp <;> omega

/-! ### Verbatim chunk extraction (`script.py`, `extract_chunk_verbatim`) -/

/-- Embedding of Python `str.find`: index of the first occurrence of `pat`
in `doc`, `none` when there is no occurrence (Python returns `-1`). -/
def strFind (doc pat : List Char) : Option Nat :=
  match doc with
  | [] => if pat = [] then some 0 else none
  | c :: rest =>
    if pat.isPrefixOf (c :: rest) then some 0
    else (strFind rest pat).map (fun k => k + 1)

/-- Embedding of `extract_chunk_verbatim` (`script.py` lines 285-298):
empty candidate or no occurrence gives the empty string, otherwise the slice
`document_text[start : start + len(answer_text)]` at the first occurrence. -/
def extract_chunk_verbatim (document_text answer_text : List Char) : List Char :=
  if answer_text = [] then []
  else
    match strFind document_text answer_text with
    | none => []
    | some start => (document_text.drop start).take answer_text.length

/-! ### JSON value model

The analysed code paths inspect only JSON scalars (strings, numbers,
booleans, null) stored in candidate objects; containers nested inside a
field value are not examined by any modelled branch and are therefore not
represented. -/

inductive JVal where
  | jstr : List Char → JVal
  | jnum : Int → JVal
  | jbool : Bool → JVal
  | jnull : JVal
deriving DecidableEq

/-- Python treats booleans as the integers 0 and 1. -/
def jboolInt (b : Bool) : Int := if b then 1 else 0

/-- Python `==` on the modelled JSON scalars (`True == 1`, `None == None`,
values of unrelated types compare unequal). -/
def pyEq : JVal → JVal → Bool
  | .jstr a, .jstr b => decide (a = b)
  | .jnum a, .jnum b => decide (a = b)
  | .jbool a, .jbool b => decide (a = b)
  | .jbool a, .jnum m => decide (jboolInt a = m)
  | .jnum m, .jbool b => decide (m = jboolInt b)
  | .jnull, .jnull => true
  | _, _ => false

/-- One element of a parsed JSON array: either a JSON object (Python dict)
with scalar field values, or a bare scalar (a non-dict element). -/
inductive JItem where
  | scalar : JVal → JItem
  | obj : List (List Char × JVal) → JItem
deriving DecidableEq

/-- Dict lookup (JSON object keys are unique, so first match suffices). -/
def dictGet (fields : List (List Char × JVal)) (key : List Char) : Option JVal :=
  match fields with
  | [] => none
  | (k, v) :: rest => if k = key then some v else dictGet rest key

/-- Exception message texts (`str(e)`); Python's own wording carries the
offending type name, abbreviated here to a fixed text per exception site. -/
def strNoGetAttr : List Char := "object has no attribute get".toList

def strNoStripAttr : List Char := "object has no attribute strip".toList

def strEmptyResponse : List Char := "Empty response from LLM".toList

def strInvalidJsonHead : List Char := "Invalid JSON response: ".toList

def strTypeCmpErr : List Char := "comparison not supported".toList

/-- `item.get(key, default)`; raises `AttributeError` on a non-dict
receiver, `default` is returned only when the key is absent. -/
def pyGet (item : JItem) (key : List Char) (dflt : JVal) : Except PyErr JVal :=
  match item with
  | .scalar _ => .error (.attributeError strNoGetAttr)
  | .obj fields => .ok ((dictGet fields key).getD dflt)

def keyAnswerLocation : List Char := "answer_location".toList

def keyQuestion : List Char := "question".toList

def keyScore : List Char := "score".toList

def keyReason : List Char := "reason".toList

def strCorrect : List Char := "correct".toList

def strUnclear : List Char := "unclear".toList

def strIncorrect : List Char := "incorrect".toList

def strErrorCat : List Char := "error".toList

/-- The whitespace set of Python `str.strip()` (ASCII part). -/
def pyIsSpace (c : Char) : Bool :=
  c == ' ' || c == '\t' || c == '\n' || c == '\r' || c == '\x0b' || c == '\x0c'

/-- Python `str.strip()`. -/
def stripChars (s : List Char) : List Char :=
  ((s.dropWhile pyIsSpace).reverse.dropWhile pyIsSpace).reverse

/-- `value.strip()`: `AttributeError` unless the value is a string. -/
def pyStrV : JVal → Except PyErr (List Char)
  | .jstr s => .ok (stripChars s)
  | _ => .error (.attributeError strNoStripAttr)

/-! ### Regex span extraction (`JSON_LIST_PATTERN`, the scorer's brace regex)

`re.search(r"[.*]", text, re.DOTALL)` (and the brace analogue) matches from
the leftmost viable opening character — the first one followed by some
closing character — through the last closing character of the text (greedy
`.*` across newlines). -/

/-- Longest initial segment of `s` ending at the last occurrence of `close`
(callers establish that `s` contains `close`). -/
def upToLast (close : Char) : List Char → List Char
  | [] => []
  | c :: rest =>
    if rest.contains close then c :: upToLast close rest
    else if c == close then [c] else []

/-- `re.search` of the DOTALL-greedy pattern `openC.*closeC`: the match
starts at the first `openC` having some `closeC` after it and extends
through the last `closeC`; `none` when no such span exists. -/
def regexSpanMatch (openC closeC : Char) : List Char → Option (List Char)
  | [] => none
  | c :: rest =>
    if c == openC && rest.contains closeC then some (c :: upToLast closeC rest)
    else regexSpanMatch openC closeC rest

/-- `JSON_LIST_PATTERN.search` (`script.py` line 30). -/
def jsonListMatch (s : List Char) : Option (List Char) := regexSpanMatch '[' ']' s

/-- The scorer's verdict regex search (`evaluate.py` line 248). -/
def braceMatch (s : List Char) : Option (List Char) := regexSpanMatch '\x7b' '\x7d' s

/-- Statement-side predicate (from the claim's words): the text has a
substring from a `[` to a later `]`. -/
def hasListShape : List Char → Bool
  | [] => false
  | c :: rest => (c == '[' && rest.contains ']') || hasListShape rest

/-- Embedding of `parse_json_list` (`script.py` lines 62-78), parameterized
by the external strict JSON parser `jp` (`json.loads`; `none` models a
`JSONDecodeError`). -/
def parse_json_list (jp : List Char → Option (List JItem)) (response_text : List Char) :
    List JItem :=
  match jsonListMatch response_text with
  | none => []
  | some raw =>
    match jp raw with
    | some parsed => parsed
    | none =>
      match jp (repair_invalid_json_escapes raw) with
      | some parsed => parsed
      | none => []

/-! ### Generation loop (`script.py`, `QuestionGenerator`) -/

/-- The `QAPair` dataclass; `question` holds whatever `item.get("question",
"")` returned (the dataclass annotation is not enforced at runtime), the
scoring-stage fields default to the empty string. -/
structure QAPair where
  question : JVal
  file : List Char
  chunk : List Char
  answer : List Char
  evaluate : List Char
  score : List Char
  check : List Char
deriving DecidableEq

/-- `QAPair(question=…, file=…, chunk=…)` with default remaining fields. -/
def mkQAPair (q : JVal) (fname chunk : List Char) : QAPair :=
  ⟨q, fname, chunk, [], [], [], []⟩

/-- `MAX_RETRY` (`config.py` line 11). -/
def MAX_RETRY : Nat := 2

/-- Embedding of `QuestionGenerator._extend_valid_pairs` (`script.py` lines
203-227).  The Python loop mutates `valid_pairs`; here the updated list is
returned, or the exception if an iteration raises (`.get` on a non-dict
item, `.strip()` on a non-string value).  The local variable `chunk` of the
Python body is inlined. -/
def extendValidPairs (doc fname : List Char) (target : Nat) :
    List JItem → List QAPair → Except PyErr (List QAPair)
  | [], vp => .ok vp
  | item :: rest, vp =>
    if target ≤ vp.length then .ok vp
    else
      match item with
      | .scalar _ => .error (.attributeError strNoGetAttr)
      | .obj fields =>
        match pyStrV ((dictGet fields keyAnswerLocation).getD (JVal.jstr [])) with
        | .error e => .error e
        | .ok answer_text =>
          if answer_text = [] then extendValidPairs doc fname target rest vp
          else if extract_chunk_verbatim doc answer_text = [] then
            extendValidPairs doc fname target rest vp
          else if vp.any
              (fun q => pyEq q.question ((dictGet fields keyQuestion).getD JVal.jnull)) then
            extendValidPairs doc fname target rest vp
          else
            extendValidPairs doc fname target rest
              (vp ++ [mkQAPair ((dictGet fields keyQuestion).getD (JVal.jstr []))
                fname (extract_chunk_verbatim doc answer_text)])

/-- The while-loop of `generate_questions`: `remaining` encodes the guard
`attempt <= MAX_RETRY` as `remaining = MAX_RETRY + 1 - attempt`, `attempt`
is the Python counter, and the result carries the final attempt count. -/
def genLoopAux (doc fname : List Char) (responses : Nat → List JItem) (target : Nat) :
    Nat → Nat → List QAPair → Except PyErr (Nat × List QAPair)
  | 0, attempt, vp => .ok (attempt, vp)
  | r + 1, attempt, vp =>
    if vp.length < target then
      match extendValidPairs doc fname target (responses (attempt + 1)) vp with
      | .error e => .error e
      | .ok vp2 =>
        if target ≤ vp2.length then .ok (attempt + 1, vp2)
        else genLoopAux doc fname responses target r (attempt + 1) vp2
    else .ok (attempt, vp)

/-- Embedding of `QuestionGenerator.generate_questions` (`script.py` lines
144-178) returning the number of provider calls made together with the
accumulated pairs.  `responses k` is the candidate list parsed from the
provider's response on attempt `k` (`provider.chat` plus `_parse_questions`
are the external collaborators producing it). -/
def generate_questions_run (doc fname : List Char) (responses : Nat → List JItem)
    (target : Nat) : Except PyErr (Nat × List QAPair) :=
  genLoopAux doc fname responses target (MAX_RETRY + 1) 0 []

/-- `generate_questions` as the caller sees it: just the pair list. -/
def generate_questions (doc fname : List Char) (responses : Nat → List JItem)
    (target : Nat) : Except PyErr (List QAPair) :=
  (generate_questions_run doc fname responses target).map Prod.snd

/-- Statement-side predicate: the candidate is a dict carrying a `question`
key (with any value). -/
def questionKeyed : JItem → Bool
  | .scalar _ => false
  | .obj fields => (dictGet fields keyQuestion).isSome

/-- Statement-side predicate: the candidate is a dict whose
`answer_location` value, when present, is a string — exactly the condition
under which one iteration of `_extend_valid_pairs` cannot raise. -/
def safeGenItem : JItem → Bool
  | .scalar _ => false
  | .obj fields =>
    match dictGet fields keyAnswerLocation with
    | none => true
    | some (JVal.jstr _) => true
    | some _ => false

/-- Concrete inputs for the counterexamples. -/
def cexDoc : List Char := "X marks".toList

def cexFile : List Char := "doc.md".toList

/-- Two well-parsed candidates that both lack a `question` key. -/
def cexDupResponses : Nat → List JItem := fun _ =>
  [JItem.obj [(keyAnswerLocation, JVal.jstr "X".toList)],
   JItem.obj [(keyAnswerLocation, JVal.jstr "X".toList)]]

/-- A parsed candidate list whose single element is the JSON number 1
(`json.loads` on the response substring `[1]`). -/
def cexRaiseResponses : Nat → List JItem := fun _ => [JItem.scalar (JVal.jnum 1)]

/-! ### Scorer (`evaluate.py`) -/

/-- A scorer item (dict with the six dataset keys); the scorer reads
`question`, `chunk`, `answer` and writes `evaluate`, `score`, `check`. -/
structure EvalItem where
  question : JVal
  chunk : JVal
  answer : JVal
  evaluate : JVal
  score : JVal
  check : JVal
deriving DecidableEq

/-- `map_score_to_evaluate` (`evaluate.py` lines 257-264); comparing a
non-numeric score against an int raises `TypeError` (Python booleans are
integers and compare normally). -/
def map_score_to_evaluate : JVal → Except PyErr (List Char)
  | .jnum s =>
    .ok (if 6 ≤ s then strCorrect else if s = 5 then strUnclear else strIncorrect)
  | .jbool b =>
    .ok (if 6 ≤ jboolInt b then strCorrect
      else if jboolInt b = 5 then strUnclear else strIncorrect)
  | _ => .error (.typeError strTypeCmpErr)

/-- Embedding of `call_llm` (`evaluate.py` lines 230-254), parameterized by
the external JSON parser `jp` (error payload: `str` of the decode error)
and applied to the provider's raw response text for the item. -/
def call_llm (jp : List Char → Except (List Char) JItem) (response_text : List Char) :
    Except PyErr JItem :=
  if response_text = [] then .error (.valueError strEmptyResponse)
  else
    match braceMatch response_text with
    | some raw =>
      match jp raw with
      | .ok v => .ok v
      | .error m => .error (.valueError (strInvalidJsonHead ++ m))
    | none =>
      match jp response_text with
      | .ok v => .ok v
      | .error m => .error (.valueError (strInvalidJsonHead ++ m))

/-- The `try` body of `process_item`: obtain the verdict, read its score,
map it to a category, read the rationale, and annotate the item. -/
def processItemTry (jp : List Char → Except (List Char) JItem)
    (response_text : List Char) (item : EvalItem) : Except PyErr EvalItem :=
  match call_llm jp response_text with
  | .error e => .error e
  | .ok nli =>
    match pyGet nli keyScore (JVal.jnum 0) with
    | .error e => .error e
    | .ok score =>
      match map_score_to_evaluate score with
      | .error e => .error e
      | .ok cat =>
        match pyGet nli keyReason (JVal.jstr []) with
        | .error e => .error e
        | .ok reason =>
          .ok ⟨item.question, item.chunk, item.answer, JVal.jstr cat, score, reason⟩

/-- Embedding of `process_item` (`evaluate.py` lines 267-291): any exception
in the `try` body is caught; the item is then annotated with the `error`
category, sentinel score 0, and the exception text in `check`. -/
def process_item (jp : List Char → Except (List Char) JItem)
    (response_text : List Char) (item : EvalItem) : EvalItem :=
  match processItemTry jp response_text item with
  | .ok item2 => item2
  | .error e =>
    ⟨item.question, item.chunk, item.answer, JVal.jstr strErrorCat, JVal.jnum 0,
      JVal.jstr (pyErrText e)⟩

/-- The per-item loop of `run_evaluation` (`evaluate.py` lines 314-318);
`responseOf idx` is the provider's response for the 1-based item index. -/
def evaluateItems (jp : List Char → Except (List Char) JItem)
    (responseOf : Nat → List Char) : List EvalItem → Nat → List EvalItem
  | [], _ => []
  | item :: rest, idx =>
    process_item jp (responseOf idx) item :: evaluateItems jp responseOf rest (idx + 1)

/-- `run_evaluation`'s scoring pass over the whole dataset. -/
def run_evaluation (jp : List Char → Except (List Char) JItem)
    (responseOf : Nat → List Char) (data : List EvalItem) : List EvalItem :=
  evaluateItems jp responseOf data 1

/-- The accumulators of `print_statistics` (`evaluate.py` lines 332-361):
the per-category tally, the score sum and count over positive scores, and
the 1..10 score distribution.  The printed average is
`score_sum / score_count` when `score_count > 0` (float division is not
modelled; the claim concerns which items enter sum and denominator). -/
structure StatsAcc where
  counts : List (JVal × Nat)
  score_sum : Int
  score_count : Nat
  dist : List (Int × Nat)
deriving DecidableEq

/-- `{"correct": 0, "incorrect": 0, "unclear": 0, "error": 0}`. -/
def initCounts : List (JVal × Nat) :=
  [(JVal.jstr strCorrect, 0), (JVal.jstr strIncorrect, 0),
   (JVal.jstr strUnclear, 0), (JVal.jstr strErrorCat, 0)]

/-- `{i: 0 for i in range(1, 11)}`. -/
def initDist : List (Int × Nat) :=
  (List.range 10).map (fun i => ((i : Int) + 1, 0))

/-- `counts[evaluate] = counts.get(evaluate, 0) + 1` on an insertion-ordered
dict: bump the first matching key or append a new one. -/
def bumpCount : List (JVal × Nat) → JVal → List (JVal × Nat)
  | [], key => [(key, 1)]
  | (k, c) :: rest, key =>
    if pyEq k key then (k, c + 1) :: rest else (k, c) :: bumpCount rest key

/-- `counts.get(key, 0)`-style read used to report the tally. -/
def lookupCount : List (JVal × Nat) → JVal → Nat
  | [], _ => 0
  | (k, c) :: rest, key => if pyEq k key then c else lookupCount rest key

/-- `score_dist[score] += 1` (the key is present by the `1 <= score <= 10`
guard). -/
def bumpDist (dist : List (Int × Nat)) (s : Int) : List (Int × Nat) :=
  dist.map (fun p => if p.1 = s then (p.1, p.2 + 1) else p)

/-- Numeric coercion at the points where Python compares and sums the score
(`score > 0`, `score_sum += score`); non-numeric raises `TypeError`. -/
def pyNum : JVal → Except PyErr Int
  | .jnum n => .ok n
  | .jbool b => .ok (jboolInt b)
  | _ => .error (.typeError strTypeCmpErr)

/-- One iteration of the statistics loop over an item. -/
def statsStep (acc : StatsAcc) (item : EvalItem) : Except PyErr StatsAcc :=
  let counts2 := bumpCount acc.counts item.evaluate
  match pyNum item.score with
  | .error e => .error e
  | .ok sv =>
    if 0 < sv then
      .ok ⟨counts2, acc.score_sum + sv, acc.score_count + 1,
        if 1 ≤ sv ∧ sv ≤ 10 then bumpDist acc.dist sv else acc.dist⟩
    else .ok ⟨counts2, acc.score_sum, acc.score_count, acc.dist⟩

def statsOfItems : List EvalItem → StatsAcc → Except PyErr StatsAcc
  | [], acc => .ok acc
  | item :: rest, acc =>
    match statsStep acc item with
    | .error e => .error e
    | .ok acc2 => statsOfItems rest acc2

/-- The computation of `print_statistics` (`evaluate.py` lines 332-361). -/
def print_statistics (data : List EvalItem) : Except PyErr StatsAcc :=
  statsOfItems data ⟨initCounts, 0, 0, initDist⟩

/-- Statement-side helper: the integer value of an item score (theorem
hypotheses restrict scores to `jnum`, where this is exact). -/
def itemScore (it : EvalItem) : Int :=
  match it.score with
  | .jnum n => n
  | .jbool b => jboolInt b
  | _ => 0

example : repair_invalid_json_escapes "sai \\d format".toList = "sai \\\\d format".toList := by
  simp [repair_invalid_json_escapes, validEscapeChars, isJsonHexDigit, fourHexHead]

example : repair_invalid_json_escapes "a\\n b\\u00e9".toList = "a\\n b\\u00e9".toList := by
  simp [repair_invalid_json_escapes, validEscapeChars, isJsonHexDigit, fourHexHead]

example : repair_invalid_json_escapes "x\\".toList = "x\\\\".toList := by
  simp [repair_invalid_json_escapes, validEscapeChars, isJsonHexDigit, fourHexHead]

example : onlyLegalJsonEscapes "a\\n b\\u00e9".toList = true := by
  simp [onlyLegalJsonEscapes, validEscapeChars, isJsonHexDigit, fourHexHead]

example : onlyLegalJsonEscapes "sai \\d".toList = false := by
  simp [onlyLegalJsonEscapes, validEscapeChars, isJsonHexDigit, fourHexHead]

lemma repair_of_onlyLegal (s : List Char) (h : onlyLegalJsonEscapes s = true) :
    repair_invalid_json_escapes s = s := by
  induction s using repair_invalid_json_escapes.induct with
  | case1 => simp [repair_invalid_json_escapes]
  | case2 c hc => simp [repair_invalid_json_escapes, hc]
  | case3 c hc =>
    simp only [ne_eq, not_not] at hc
    subst hc
    simp [onlyLegalJsonEscapes] at h
  | case4 c n rest2 hc ih =>
    simp only [onlyLegalJsonEscapes, if_pos hc] at h
    simp only [repair_invalid_json_escapes, if_pos hc]
    rw [ih h]
  | case5 c n rest2 hc hv ih =>
    simp only [onlyLegalJsonEscapes, if_neg hc, if_pos hv] at h
    simp only [repair_invalid_json_escapes, if_neg hc, if_pos hv]
    rw [ih h]
  | case6 c n rest2 hc hv hu ih =>
    simp only [onlyLegalJsonEscapes, if_neg hc, if_neg hv, if_pos hu] at h
    simp only [repair_invalid_json_escapes, if_neg hc, if_neg hv, if_pos hu]
    rw [ih h, List.take_append_drop]
  | case7 c n rest2 hc hv hu ih =>
    simp only [onlyLegalJsonEscapes, if_neg hc, if_neg hv, if_neg hu] at h
    exact absurd h (by simp)

lemma repair_nil : repair_invalid_json_escapes [] = [] := by
  simp [repair_invalid_json_escapes]

lemma repair_lastSlash : repair_invalid_json_escapes ['\\'] = ['\\', '\\'] := by
  simp [repair_invalid_json_escapes]

lemma repair_copy (c : Char) (rest : List Char) (hc : c ≠ '\\') :
    repair_invalid_json_escapes (c :: rest) = c :: repair_invalid_json_escapes rest := by
  match rest with
  | [] => simp [repair_invalid_json_escapes, hc]
  | n :: rest2 => simp only [repair_invalid_json_escapes, if_pos hc]

lemma repair_legal (n : Char) (rest : List Char) (hv : validEscapeChars.contains n = true) :
    repair_invalid_json_escapes ('\\' :: n :: rest) =
      '\\' :: n :: repair_invalid_json_escapes rest := by
  simp only [repair_invalid_json_escapes, if_neg (by simp : ¬('\\' ≠ '\\')), if_pos hv]

lemma repair_uhex (h1 h2 h3 h4 : Char) (rest : List Char)
    (e1 : isJsonHexDigit h1 = true) (e2 : isJsonHexDigit h2 = true)
    (e3 : isJsonHexDigit h3 = true) (e4 : isJsonHexDigit h4 = true) :
    repair_invalid_json_escapes ('\\' :: 'u' :: h1 :: h2 :: h3 :: h4 :: rest) =
      '\\' :: 'u' :: h1 :: h2 :: h3 :: h4 :: repair_invalid_json_escapes rest := by
  have hv : ¬ validEscapeChars.contains 'u' = true := by decide
  have hcond : ('u' == 'u' && fourHexHead (h1 :: h2 :: h3 :: h4 :: rest)) = true := by
    simp [fourHexHead, e1, e2, e3, e4]
  rw [repair_invalid_json_escapes]
  rw [if_neg (by simp : ¬('\\' ≠ '\\')), if_neg hv, if_pos hcond]
  simp [List.take, List.drop]

lemma repair_illegal (n : Char) (rest : List Char)
    (hv : validEscapeChars.contains n = false)
    (hu : (n == 'u' && fourHexHead rest) = false) :
    repair_invalid_json_escapes ('\\' :: n :: rest) =
      '\\' :: '\\' :: repair_invalid_json_escapes (n :: rest) := by
  have g1 : ¬ validEscapeChars.contains n = true := by rw [hv]; exact Bool.false_ne_true
  have g2 : ¬ (n == 'u' && fourHexHead rest) = true := by rw [hu]; exact Bool.false_ne_true
  simp only [repair_invalid_json_escapes, if_neg (by simp : ¬('\\' ≠ '\\')),
    if_neg g1, if_neg g2]

/-- C6: on any text in which every backslash begins a legal JSON escape
(one of the eight single-character escapes, or a backslash-u escape followed
by four hexadecimal digits), `repair_invalid_json_escapes` returns its input
unchanged.  Since a valid JSON text contains only such backslashes, the
repair pass applied to valid JSON returns it unchanged. -/
theorem repair_preserves_legal_escape_text (s : List Char)
    (h : onlyLegalJsonEscapes s = true) :
    repair_invalid_json_escapes s = s :=
  repair_of_onlyLegal s h

theorem repair_preserves_legal_escape_text_witness :
    onlyLegalJsonEscapes "a\\n b\\u00e9 \\\\x".toList = true ∧
      repair_invalid_json_escapes "a\\n b\\u00e9 \\\\x".toList =
        "a\\n b\\u00e9 \\\\x".toList :=
  ⟨by simp [onlyLegalJsonEscapes, validEscapeChars, isJsonHexDigit, fourHexHead],
    repair_preserves_legal_escape_text _
      (by simp [onlyLegalJsonEscapes, validEscapeChars, isJsonHexDigit, fourHexHead])⟩

/-- C7: step behaviour of `repair_invalid_json_escapes`.  A backslash that is
the last character is replaced by a doubled backslash; a legal two-character
escape is copied through unchanged; a six-character backslash-u escape with
four hexadecimal digits is copied through unchanged; a backslash followed by
an illegal escape character is replaced by a doubled backslash while
advancing only one position, so the following character is re-examined; and
characters other than backslash are copied verbatim. -/
theorem repair_step_behaviour :
    (repair_invalid_json_escapes ['\\'] = ['\\', '\\']) ∧
    (∀ c rest, c ≠ '\\' →
      repair_invalid_json_escapes (c :: rest) = c :: repair_invalid_json_escapes rest) ∧
    (∀ n rest, validEscapeChars.contains n = true →
      repair_invalid_json_escapes ('\\' :: n :: rest) =
        '\\' :: n :: repair_invalid_json_escapes rest) ∧
    (∀ h1 h2 h3 h4 rest,
      isJsonHexDigit h1 = true → isJsonHexDigit h2 = true →
      isJsonHexDigit h3 = true → isJsonHexDigit h4 = true →
      repair_invalid_json_escapes ('\\' :: 'u' :: h1 :: h2 :: h3 :: h4 :: rest) =
        '\\' :: 'u' :: h1 :: h2 :: h3 :: h4 :: repair_invalid_json_escapes rest) ∧
    (∀ n rest, validEscapeChars.contains n = false →
      (n == 'u' && fourHexHead rest) = false →
      repair_invalid_json_escapes ('\\' :: n :: rest) =
        '\\' :: '\\' :: repair_invalid_json_escapes (n :: rest)) :=
  ⟨repair_lastSlash, repair_copy, repair_legal, repair_uhex, repair_illegal⟩

theorem repair_step_behaviour_witness :
    repair_invalid_json_escapes ('\\' :: 'd' :: 'x' :: []) =
      '\\' :: '\\' :: repair_invalid_json_escapes ('d' :: 'x' :: []) :=
  repair_step_behaviour.2.2.2.2 'd' ['x'] (by decide) (by decide)

lemma strFind_some_starts (doc pat : List Char) (i : Nat)
    (h : strFind doc pat = some i) : pat <+: doc.drop i := by
  induction doc generalizing i with
  | nil =>
    unfold strFind at h
    by_cases hp : pat = ([] : List Char)
    · rw [if_pos hp] at h
      injection h with h
      subst h
      simp [hp]
    · rw [if_neg hp] at h
      exact absurd h (by simp)
  | cons c rest ih =>
    unfold strFind at h
    by_cases hp : pat.isPrefixOf (c :: rest)
    · rw [if_pos hp] at h
      injection h with h
      subst h
      simpa using List.isPrefixOf_iff_prefix.mp hp
    · rw [if_neg hp] at h
      match hfind : strFind rest pat with
      | none => rw [hfind] at h; exact absurd h (by simp)
      | some k =>
        rw [hfind] at h
        simp only [Option.map] at h
        injection h with h
        subst h
        simpa using ih k hfind

lemma strFind_min (doc pat : List Char) (i : Nat)
    (h : strFind doc pat = some i) :
    ∀ j, j < i → ¬ pat <+: doc.drop j := by
  induction doc generalizing i with
  | nil =>
    unfold strFind at h
    by_cases hp : pat = ([] : List Char)
    · rw [if_pos hp] at h
      injection h with h
      subst h
      intro j hj
      exact absurd hj (Nat.not_lt_zero j)
    · rw [if_neg hp] at h
      exact absurd h (by simp)
  | cons c rest ih =>
    unfold strFind at h
    by_cases hp : pat.isPrefixOf (c :: rest)
    · rw [if_pos hp] at h
      injection h with h
      subst h
      intro j hj
      exact absurd hj (Nat.not_lt_zero j)
    · rw [if_neg hp] at h
      match hfind : strFind rest pat with
      | none => rw [hfind] at h; exact absurd h (by simp)
      | some k =>
        rw [hfind] at h
        simp only [Option.map] at h
        injection h with h
        subst h
        intro j hj
        match j with
        | 0 =>
          simpa using fun hpre => hp (List.isPrefixOf_iff_prefix.mpr hpre)
        | j + 1 =>
          simpa using ih k hfind j (by omega)

lemma strFind_none_no_occurrence (doc pat : List Char)
    (h : strFind doc pat = none) : ¬ pat <:+: doc := by
  induction doc with
  | nil =>
    unfold strFind at h
    by_cases hp : pat = ([] : List Char)
    · simp [hp] at h
    · simpa [List.infix_nil] using hp
  | cons c rest ih =>
    unfold strFind at h
    by_cases hp : pat.isPrefixOf (c :: rest)
    · rw [if_pos hp] at h; simp at h
    · rw [if_neg hp] at h
      intro hinf
      rcases List.infix_cons_iff.mp hinf with hpre | hinf2
      · exact hp (List.isPrefixOf_iff_prefix.mpr hpre)
      · match hfind : strFind rest pat with
        | none => exact ih hfind hinf2
        | some k => rw [hfind] at h; simp at h

lemma occurrence_in_document (doc pat : List Char) (i : Nat)
    (h : pat <+: doc.drop i) : pat <:+: doc :=
  h.isInfix.trans (List.drop_suffix i doc).isInfix

lemma prefix_take_eq (pat l : List Char) (h : pat <+: l) :
    l.take pat.length = pat := by
  rcases h with ⟨t, rfl⟩
  exact List.take_left pat t

/-- If the extracted chunk is non-empty then it is exactly the candidate and
an infix of the document; this is the acceptance-side fact used by the
generation-loop invariant. -/
lemma extract_nonempty (doc ans : List Char)
    (h : extract_chunk_verbatim doc ans ≠ []) :
    extract_chunk_verbatim doc ans = ans ∧ extract_chunk_verbatim doc ans <:+: doc := by
  unfold extract_chunk_verbatim at *
  by_cases ha : ans = ([] : List Char)
  · simp [ha] at h
  · rw [if_neg ha] at h ⊢
    match hfind : strFind doc ans with
    | none => rw [hfind] at h; exact absurd rfl h
    | some i =>
      have hpre := strFind_some_starts doc ans i hfind
      have ht : (doc.drop i).take ans.length = ans := prefix_take_eq ans (doc.drop i) hpre
      show (doc.drop i).take ans.length = ans ∧ (doc.drop i).take ans.length <:+: doc
      rw [ht]
      exact ⟨rfl, occurrence_in_document doc ans i hpre⟩

/-- C10: `extract_chunk_verbatim` returns either the empty string or the
candidate itself: exactly the candidate when the candidate is non-empty and
occurs in the document (and the occurrence used is the first one), and the
empty string otherwise — the document-sourced slice never differs from the
candidate. -/
theorem extract_chunk_verbatim_exact (doc ans : List Char) :
    (extract_chunk_verbatim doc ans = ans ∨ extract_chunk_verbatim doc ans = []) ∧
    (ans ≠ [] → ans <:+: doc → extract_chunk_verbatim doc ans = ans) ∧
    ((ans = [] ∨ ¬ ans <:+: doc) → extract_chunk_verbatim doc ans = []) ∧
    (∀ i, strFind doc ans = some i → ans <+: doc.drop i ∧
      ∀ j, j < i → ¬ ans <+: doc.drop j) := by
  refine ⟨?_, ?_, ?_, ?_⟩
  · by_cases h : extract_chunk_verbatim doc ans = []
    · exact Or.inr h
    · exact Or.inl (extract_nonempty doc ans h).1
  · intro ha hinf
    unfold extract_chunk_verbatim
    rw [if_neg ha]
    match hfind : strFind doc ans with
    | none => exact absurd hinf (strFind_none_no_occurrence doc ans hfind)
    | some i =>
      exact prefix_take_eq ans (doc.drop i) (strFind_some_starts doc ans i hfind)
  · intro h
    rcases h with ha | hninf
    · simp [extract_chunk_verbatim, ha]
    · unfold extract_chunk_verbatim
      by_cases ha : ans = ([] : List Char)
      · simp [ha]
      · rw [if_neg ha]
        match hfind : strFind doc ans with
        | none => rfl
        | some i =>
          exact absurd
            (occurrence_in_document doc ans i (strFind_some_starts doc ans i hfind)) hninf
  · intro i hfind
    exact ⟨strFind_some_starts doc ans i hfind, strFind_min doc ans i hfind⟩

lemma jsonListMatch_none_iff (s : List Char) :
    jsonListMatch s = none ↔ hasListShape s = false := by
  unfold jsonListMatch
  induction s with
  | nil => simp [regexSpanMatch, hasListShape]
  | cons c rest ih =>
    unfold regexSpanMatch hasListShape
    by_cases h1 : c = '['
    · by_cases h2 : (']' : Char) ∈ rest
      · simp [h1, h2]
      · simp [h1, h2, ih]
    · simp [h1, ih]

/-- C5: control flow of `parse_json_list`.  When the response has no span
from a `[` to a later `]`, the result is the empty list; otherwise the
bracket span is taken (first viable `[` through the last `]`), the strict
parse result is returned on success, the parse is retried exactly once on
the repaired text on failure, and the empty list is returned (no exception)
when the second parse also fails. -/
theorem parse_json_list_control_flow (jp : List Char → Option (List JItem))
    (s : List Char) :
    (hasListShape s = false → parse_json_list jp s = []) ∧
    (hasListShape s = true → (jsonListMatch s).isSome = true) ∧
    (∀ raw, jsonListMatch s = some raw →
      (∀ v, jp raw = some v → parse_json_list jp s = v) ∧
      (jp raw = none →
        ∀ v, jp (repair_invalid_json_escapes raw) = some v → parse_json_list jp s = v) ∧
      (jp raw = none → jp (repair_invalid_json_escapes raw) = none →
        parse_json_list jp s = [])) := by
  refine ⟨?_, ?_, ?_⟩
  · intro h
    unfold parse_json_list
    rw [(jsonListMatch_none_iff s).mpr h]
  · intro h
    match hm : jsonListMatch s with
    | some raw => rfl
    | none =>
      rw [(jsonListMatch_none_iff s).mp hm] at h
      exact absurd h (by simp)
  · intro raw hm
    refine ⟨?_, ?_, ?_⟩
    · intro v hv
      simp only [parse_json_list, hm, hv]
    · intro h1 v hv
      simp only [parse_json_list, hm, h1, hv]
    · intro h1 h2
      simp only [parse_json_list, hm, h1, h2]

theorem parse_json_list_control_flow_witness :
    parse_json_list (fun _ => none) "no brackets here".toList = [] ∧
      parse_json_list
        (fun l => if l = "[1]".toList then some [JItem.scalar (JVal.jnum 1)] else none)
        "text [1] tail".toList = [JItem.scalar (JVal.jnum 1)] :=
  ⟨(parse_json_list_control_flow (fun _ => none) _).1 (by decide),
    ((parse_json_list_control_flow _ _).2.2 "[1]".toList (by decide)).1
      [JItem.scalar (JVal.jnum 1)] (by decide)⟩

theorem extract_chunk_verbatim_exact_witness :
    extract_chunk_verbatim "tài liệu: Chiết khấu: 3% doanh thu".toList
        "Chiết khấu: 3%".toList = "Chiết khấu: 3%".toList ∧
      extract_chunk_verbatim "tài liệu: Chiết khấu: 3% doanh thu".toList
        "Chiết khấu: 5%".toList = [] :=
  ⟨(extract_chunk_verbatim_exact _ _).2.1 (by decide)
      (⟨"tài liệu: ".toList, " doanh thu".toList, by decide⟩),
    (extract_chunk_verbatim_exact _ _).2.2.1
      (Or.inr (by decide))⟩

/-! ### Generation-loop invariants -/

/-- Every pair accumulated by `_extend_valid_pairs` keeps a non-empty chunk
that is an exact substring of the document. -/
lemma extendValidPairs_chunk_inv (doc fname : List Char) (target : Nat) :
    ∀ (items : List JItem) (vp vp2 : List QAPair),
      extendValidPairs doc fname target items vp = .ok vp2 →
      (∀ p ∈ vp, p.chunk ≠ [] ∧ p.chunk <:+: doc) →
      ∀ p ∈ vp2, p.chunk ≠ [] ∧ p.chunk <:+: doc := by
  intro items
  induction items with
  | nil =>
    intro vp vp2 h hvp
    simp only [extendValidPairs] at h
    injection h with h
    subst h
    exact hvp
  | cons item rest ih =>
    intro vp vp2 h hvp
    by_cases hlen : target ≤ vp.length
    · simp only [extendValidPairs, if_pos hlen] at h
      injection h with h
      subst h
      exact hvp
    · cases item with
      | scalar v =>
        simp [extendValidPairs, hlen] at h
      | obj fields =>
        simp only [extendValidPairs, if_neg hlen] at h
        match hstrip : pyStrV ((dictGet fields keyAnswerLocation).getD (JVal.jstr [])) with
        | .error e => simp [hstrip] at h
        | .ok answer_text =>
          simp only [hstrip] at h
          by_cases hae : answer_text = ([] : List Char)
          · rw [if_pos hae] at h
            exact ih vp vp2 h hvp
          · rw [if_neg hae] at h
            by_cases hch : extract_chunk_verbatim doc answer_text = ([] : List Char)
            · rw [if_pos hch] at h
              exact ih vp vp2 h hvp
            · rw [if_neg hch] at h
              by_cases hdup : vp.any
                  (fun q => pyEq q.question ((dictGet fields keyQuestion).getD JVal.jnull)) =
                    true
              · rw [if_pos hdup] at h
                exact ih vp vp2 h hvp
              · rw [if_neg hdup] at h
                refine ih _ vp2 h ?_
                intro p hp
                rcases List.mem_append.mp hp with hp | hp
                · exact hvp p hp
                · have hx := List.mem_singleton.mp hp
                  subst hx
                  have he := extract_nonempty doc answer_text hch
                  exact ⟨by simpa [mkQAPair] using hch, by simpa [mkQAPair] using he.2⟩

/-- The chunk invariant survives the whole retry loop. -/
lemma genLoopAux_chunk_inv (doc fname : List Char) (responses : Nat → List JItem)
    (target : Nat) :
    ∀ (r attempt : Nat) (vp : List QAPair) (n : Nat) (vp2 : List QAPair),
      genLoopAux doc fname responses target r attempt vp = .ok (n, vp2) →
      (∀ p ∈ vp, p.chunk ≠ [] ∧ p.chunk <:+: doc) →
      ∀ p ∈ vp2, p.chunk ≠ [] ∧ p.chunk <:+: doc := by
  intro r
  induction r with
  | zero =>
    intro attempt vp n vp2 h hvp
    simp only [genLoopAux] at h
    injection h with h
    injection h with h1 h2
    subst h2
    exact hvp
  | succ r ih =>
    intro attempt vp n vp2 h hvp
    simp only [genLoopAux] at h
    by_cases hlen : vp.length < target
    · rw [if_pos hlen] at h
      match hext : extendValidPairs doc fname target (responses (attempt + 1)) vp with
      | .error e => simp [hext] at h
      | .ok vpm =>
        simp only [hext] at h
        have hvpm := extendValidPairs_chunk_inv doc fname target _ vp vpm hext hvp
        by_cases htar : target ≤ vpm.length
        · rw [if_pos htar] at h
          injection h with h
          injection h with h1 h2
          subst h2
          exact hvpm
        · rw [if_neg htar] at h
          exact ih (attempt + 1) vpm n vp2 h hvpm
    · rw [if_neg hlen] at h
      injection h with h
      injection h with h1 h2
      subst h2
      exact hvp

/-- C1: every `QAPair` returned by `generate_questions` carries a non-empty
chunk that is an exact substring of the loaded document content (the
Python-level property `document_content.find(chunk) != -1`); a candidate
whose answer location has no verbatim match never becomes a `QAPair`, so no
returned pair violates this. -/
theorem generate_questions_chunks_verbatim (doc fname : List Char)
    (responses : Nat → List JItem) (target : Nat) (vp : List QAPair)
    (h : generate_questions doc fname responses target = .ok vp) :
    ∀ p ∈ vp, p.chunk ≠ [] ∧ p.chunk <:+: doc := by
  unfold generate_questions at h
  match hrun : generate_questions_run doc fname responses target with
  | .error e =>
    rw [hrun] at h
    exact absurd h (by simp [Except.map])
  | .ok (n, vp') =>
    rw [hrun] at h
    simp only [Except.map] at h
    injection h with h
    subst h
    exact genLoopAux_chunk_inv doc fname responses target (MAX_RETRY + 1) 0 [] n vp' hrun
      (by intro p hp; simp at hp)

theorem generate_questions_chunks_verbatim_witness :
    (mkQAPair (JVal.jstr []) cexFile "X".toList).chunk ≠ [] ∧
      (mkQAPair (JVal.jstr []) cexFile "X".toList).chunk <:+: cexDoc :=
  generate_questions_chunks_verbatim cexDoc cexFile cexDupResponses 2
    [mkQAPair (JVal.jstr []) cexFile "X".toList,
      mkQAPair (JVal.jstr []) cexFile "X".toList] rfl
    (mkQAPair (JVal.jstr []) cexFile "X".toList) (by simp)

/-- `_extend_valid_pairs` appends only while below the target, so it
preserves the target bound. -/
lemma extendValidPairs_length (doc fname : List Char) (target : Nat) :
    ∀ (items : List JItem) (vp vp2 : List QAPair),
      extendValidPairs doc fname target items vp = .ok vp2 →
      vp.length ≤ target → vp2.length ≤ target := by
  intro items
  induction items with
  | nil =>
    intro vp vp2 h hvp
    simp only [extendValidPairs] at h
    injection h with h
    subst h
    exact hvp
  | cons item rest ih =>
    intro vp vp2 h hvp
    by_cases hlen : target ≤ vp.length
    · simp only [extendValidPairs, if_pos hlen] at h
      injection h with h
      subst h
      exact hvp
    · cases item with
      | scalar v =>
        simp [extendValidPairs, hlen] at h
      | obj fields =>
        simp only [extendValidPairs, if_neg hlen] at h
        match hstrip : pyStrV ((dictGet fields keyAnswerLocation).getD (JVal.jstr [])) with
        | .error e => simp [hstrip] at h
        | .ok answer_text =>
          simp only [hstrip] at h
          by_cases hae : answer_text = ([] : List Char)
          · rw [if_pos hae] at h
            exact ih vp vp2 h hvp
          · rw [if_neg hae] at h
            by_cases hch : extract_chunk_verbatim doc answer_text = ([] : List Char)
            · rw [if_pos hch] at h
              exact ih vp vp2 h hvp
            · rw [if_neg hch] at h
              by_cases hdup : vp.any
                  (fun q => pyEq q.question ((dictGet fields keyQuestion).getD JVal.jnull)) =
                    true
              · rw [if_pos hdup] at h
                exact ih vp vp2 h hvp
              · rw [if_neg hdup] at h
                refine ih _ vp2 h ?_
                simp only [List.length_append, List.length_singleton]
                omega

/-- The loop never decreases the attempt counter. -/
lemma genLoopAux_attempt_le (doc fname : List Char) (responses : Nat → List JItem)
    (target : Nat) :
    ∀ (r attempt : Nat) (vp : List QAPair) (n : Nat) (vp2 : List QAPair),
      genLoopAux doc fname responses target r attempt vp = .ok (n, vp2) →
      attempt ≤ n := by
  intro r
  induction r with
  | zero =>
    intro attempt vp n vp2 h
    simp only [genLoopAux] at h
    injection h with h
    injection h with h1 h2
    omega
  | succ r ih =>
    intro attempt vp n vp2 h
    simp only [genLoopAux] at h
    by_cases hlen : vp.length < target
    · rw [if_pos hlen] at h
      match hext : extendValidPairs doc fname target (responses (attempt + 1)) vp with
      | .error e => simp [hext] at h
      | .ok vpm =>
        simp only [hext] at h
        by_cases htar : target ≤ vpm.length
        · rw [if_pos htar] at h
          injection h with h
          injection h with h1 h2
          omega
        · rw [if_neg htar] at h
          have := ih (attempt + 1) vpm n vp2 h
          omega
    · rw [if_neg hlen] at h
      injection h with h
      injection h with h1 h2
      omega

/-- Master invariant of the retry loop: the result never exceeds the
target, the attempt counter never exceeds the budget, and an early stop
implies the target was hit exactly. -/
lemma genLoopAux_spec (doc fname : List Char) (responses : Nat → List JItem)
    (target : Nat) :
    ∀ (r attempt : Nat) (vp : List QAPair) (n : Nat) (vp2 : List QAPair),
      genLoopAux doc fname responses target r attempt vp = .ok (n, vp2) →
      vp.length ≤ target →
      vp2.length ≤ target ∧ n ≤ attempt + r ∧
        (n < attempt + r → vp2.length = target) := by
  intro r
  induction r with
  | zero =>
    intro attempt vp n vp2 h hvp
    simp only [genLoopAux] at h
    injection h with h
    injection h with h1 h2
    subst h2
    exact ⟨hvp, by omega, by omega⟩
  | succ r ih =>
    intro attempt vp n vp2 h hvp
    simp only [genLoopAux] at h
    by_cases hlen : vp.length < target
    · rw [if_pos hlen] at h
      match hext : extendValidPairs doc fname target (responses (attempt + 1)) vp with
      | .error e => simp [hext] at h
      | .ok vpm =>
        simp only [hext] at h
        have hvpm := extendValidPairs_length doc fname target _ vp vpm hext hvp
        by_cases htar : target ≤ vpm.length
        · rw [if_pos htar] at h
          injection h with h
          injection h with h1 h2
          subst h2
          exact ⟨hvpm, by omega, fun _ => by omega⟩
        · rw [if_neg htar] at h
          have := ih (attempt + 1) vpm n vp2 h hvpm
          exact ⟨this.1, by omega, fun hn => this.2.2 (by omega)⟩
    · rw [if_neg hlen] at h
      injection h with h
      injection h with h1 h2
      subst h2
      exact ⟨hvp, by omega, fun _ => by omega⟩

/-- The loop consults the oracle only on the attempts it actually makes:
any response sequence agreeing on attempts up to the final count produces
the identical run. -/
lemma genLoopAux_resp_agree (doc fname : List Char) (target : Nat) :
    ∀ (r attempt : Nat) (vp : List QAPair) (n : Nat) (vp2 : List QAPair)
      (responses responses2 : Nat → List JItem),
      genLoopAux doc fname responses target r attempt vp = .ok (n, vp2) →
      (∀ k, attempt < k → k ≤ n → responses2 k = responses k) →
      genLoopAux doc fname responses2 target r attempt vp = .ok (n, vp2) := by
  intro r
  induction r with
  | zero =>
    intro attempt vp n vp2 responses responses2 h hag
    simpa only [genLoopAux] using h
  | succ r ih =>
    intro attempt vp n vp2 responses responses2 h hag
    simp only [genLoopAux] at h ⊢
    by_cases hlen : vp.length < target
    · rw [if_pos hlen] at h ⊢
      match hext : extendValidPairs doc fname target (responses (attempt + 1)) vp with
      | .error e => simp [hext] at h
      | .ok vpm =>
        simp only [hext] at h
        by_cases htar : target ≤ vpm.length
        · rw [if_pos htar] at h
          injection h with h
          injection h with h1 h2
          subst h1
          subst h2
          have hr : responses2 (attempt + 1) = responses (attempt + 1) :=
            hag (attempt + 1) (by omega) (by omega)
          rw [hr, hext]
          simp [htar]
        · rw [if_neg htar] at h
          have hle := genLoopAux_attempt_le doc fname responses target r (attempt + 1)
            vpm n vp2 h
          have hr : responses2 (attempt + 1) = responses (attempt + 1) :=
            hag (attempt + 1) (by omega) (by omega)
          rw [hr, hext]
          simp only [if_neg htar]
          exact ih (attempt + 1) vpm n vp2 responses responses2 h
            (fun k hk1 hk2 => hag k (by omega) hk2)
    · rw [if_neg hlen] at h ⊢
      exact h

/-- C3: a successful run of the generation loop returns at most `target`
pairs, makes at most `MAX_RETRY + 1` (three) attempts, stops early only
with the target met exactly, and never consults the provider beyond the
attempts it made. -/
theorem generate_questions_target_and_retry_bound (doc fname : List Char)
    (responses : Nat → List JItem) (target n : Nat) (vp : List QAPair)
    (h : generate_questions_run doc fname responses target = .ok (n, vp)) :
    vp.length ≤ target ∧ n ≤ MAX_RETRY + 1 ∧
      (n < MAX_RETRY + 1 → vp.length = target) ∧
      (∀ responses2 : Nat → List JItem,
        (∀ k, 1 ≤ k → k ≤ n → responses2 k = responses k) →
        generate_questions_run doc fname responses2 target = .ok (n, vp)) := by
  have hs := genLoopAux_spec doc fname responses target (MAX_RETRY + 1) 0 [] n vp h
    (by simp)
  refine ⟨hs.1, by simpa using hs.2.1, fun hlt => hs.2.2 (by simpa using hlt), ?_⟩
  intro responses2 hag
  exact genLoopAux_resp_agree doc fname target (MAX_RETRY + 1) 0 [] n vp
    responses responses2 h (fun k hk1 hk2 => hag k hk1 hk2)

theorem generate_questions_target_and_retry_bound_witness :
    ([mkQAPair (JVal.jstr []) cexFile "X".toList,
        mkQAPair (JVal.jstr []) cexFile "X".toList] : List QAPair).length ≤ 2 ∧
      (1 : Nat) ≤ MAX_RETRY + 1 :=
  have h := generate_questions_target_and_retry_bound cexDoc cexFile cexDupResponses 2 1
    [mkQAPair (JVal.jstr []) cexFile "X".toList,
      mkQAPair (JVal.jstr []) cexFile "X".toList] rfl
  ⟨h.1, h.2.1⟩

lemma pyEq_refl (v : JVal) : pyEq v v = true := by
  cases v <;> simp [pyEq]

/-- When every incoming candidate carries a `question` key, the
deduplication guard keeps the accumulated questions pairwise distinct
under Python equality. -/
lemma extendValidPairs_unique (doc fname : List Char) (target : Nat) :
    ∀ (items : List JItem) (vp vp2 : List QAPair),
      (∀ item ∈ items, questionKeyed item = true) →
      extendValidPairs doc fname target items vp = .ok vp2 →
      List.Pairwise (fun a b => pyEq a.question b.question = false) vp →
      List.Pairwise (fun a b => pyEq a.question b.question = false) vp2 := by
  intro items
  induction items with
  | nil =>
    intro vp vp2 _ h hvp
    simp only [extendValidPairs] at h
    injection h with h
    subst h
    exact hvp
  | cons item rest ih =>
    intro vp vp2 hkey h hvp
    have hkey_head : questionKeyed item = true := hkey item (List.mem_cons_self _ _)
    have hkey_rest : ∀ it ∈ rest, questionKeyed it = true :=
      fun it hm => hkey it (List.mem_cons_of_mem _ hm)
    by_cases hlen : target ≤ vp.length
    · simp only [extendValidPairs, if_pos hlen] at h
      injection h with h
      subst h
      exact hvp
    · cases item with
      | scalar v =>
        simp [questionKeyed] at hkey_head
      | obj fields =>
        obtain ⟨qv, hq⟩ : ∃ qv, dictGet fields keyQuestion = some qv := by
          unfold questionKeyed at hkey_head
          exact Option.isSome_iff_exists.mp hkey_head
        simp only [extendValidPairs, if_neg hlen] at h
        match hstrip : pyStrV ((dictGet fields keyAnswerLocation).getD (JVal.jstr [])) with
        | .error e => simp [hstrip] at h
        | .ok answer_text =>
          simp only [hstrip, hq, Option.getD_some] at h
          by_cases hae : answer_text = ([] : List Char)
          · rw [if_pos hae] at h
            exact ih vp vp2 hkey_rest h hvp
          · rw [if_neg hae] at h
            by_cases hch : extract_chunk_verbatim doc answer_text = ([] : List Char)
            · rw [if_pos hch] at h
              exact ih vp vp2 hkey_rest h hvp
            · rw [if_neg hch] at h
              by_cases hdup : vp.any (fun q => pyEq q.question qv) = true
              · rw [if_pos hdup] at h
                exact ih vp vp2 hkey_rest h hvp
              · rw [if_neg hdup] at h
                refine ih _ vp2 hkey_rest h ?_
                rw [List.pairwise_append]
                refine ⟨hvp, List.pairwise_singleton _ _, ?_⟩
                intro a ha b hb
                have hb' := List.mem_singleton.mp hb
                subst hb'
                have hfalse : vp.any (fun q => pyEq q.question qv) = false :=
                  Bool.eq_false_iff.mpr hdup
                have := List.any_eq_false.mp hfalse a ha
                simpa [mkQAPair] using Bool.eq_false_iff.mpr this

/-- The uniqueness invariant survives the whole retry loop. -/
lemma genLoopAux_unique (doc fname : List Char) (responses : Nat → List JItem)
    (target : Nat)
    (hkey : ∀ k, ∀ item ∈ responses k, questionKeyed item = true) :
    ∀ (r attempt : Nat) (vp : List QAPair) (n : Nat) (vp2 : List QAPair),
      genLoopAux doc fname responses target r attempt vp = .ok (n, vp2) →
      List.Pairwise (fun a b => pyEq a.question b.question = false) vp →
      List.Pairwise (fun a b => pyEq a.question b.question = false) vp2 := by
  intro r
  induction r with
  | zero =>
    intro attempt vp n vp2 h hvp
    simp only [genLoopAux] at h
    injection h with h
    injection h with h1 h2
    subst h2
    exact hvp
  | succ r ih =>
    intro attempt vp n vp2 h hvp
    simp only [genLoopAux] at h
    by_cases hlen : vp.length < target
    · rw [if_pos hlen] at h
      match hext : extendValidPairs doc fname target (responses (attempt + 1)) vp with
      | .error e => simp [hext] at h
      | .ok vpm =>
        simp only [hext] at h
        have hvpm := extendValidPairs_unique doc fname target _ vp vpm
          (hkey (attempt + 1)) hext hvp
        by_cases htar : target ≤ vpm.length
        · rw [if_pos htar] at h
          injection h with h
          injection h with h1 h2
          subst h2
          exact hvpm
        · rw [if_neg htar] at h
          exact ih (attempt + 1) vpm n vp2 h hvpm
    · rw [if_neg hlen] at h
      injection h with h
      injection h with h1 h2
      subst h2
      exact hvp

/-- C2, counterexample to the claim as stated: two parsed candidates that
both lack a `question` key and cite the same verbatim answer location pass
the deduplication guard (`"" == None` is false in Python), so one run
returns two `QAPair`s with the identical question string `""`. -/
theorem generate_questions_duplicate_question_cex :
    generate_questions cexDoc cexFile cexDupResponses 2 =
      .ok [mkQAPair (JVal.jstr []) cexFile "X".toList,
        mkQAPair (JVal.jstr []) cexFile "X".toList] ∧
      ¬ List.Pairwise (fun a b : QAPair => a.question ≠ b.question)
        [mkQAPair (JVal.jstr []) cexFile "X".toList,
          mkQAPair (JVal.jstr []) cexFile "X".toList] :=
  ⟨rfl, fun hp =>
    (List.pairwise_cons.mp hp).1 _ (List.mem_singleton_self _) rfl⟩

/-- C2, amended: provided every parsed candidate item carries a `question`
key, no two `QAPair`s in one generation result share an identical question
value (in particular, no identical question strings). -/
theorem generate_questions_unique_questions_amended (doc fname : List Char)
    (responses : Nat → List JItem) (target : Nat) (vp : List QAPair)
    (hq : ∀ k, ∀ item ∈ responses k, questionKeyed item = true)
    (h : generate_questions doc fname responses target = .ok vp) :
    List.Pairwise (fun a b => a.question ≠ b.question) vp := by
  unfold generate_questions at h
  match hrun : generate_questions_run doc fname responses target with
  | .error e =>
    rw [hrun] at h
    exact absurd h (by simp [Except.map])
  | .ok (n, vp') =>
    rw [hrun] at h
    simp only [Except.map] at h
    injection h with h
    subst h
    have hpw := genLoopAux_unique doc fname responses target hq (MAX_RETRY + 1) 0 []
      n vp' hrun (by simp)
    exact hpw.imp (fun hab heq => absurd (heq ▸ hab) (by simp [pyEq_refl]))

theorem generate_questions_unique_questions_amended_witness :
    List.Pairwise (fun a b : QAPair => a.question ≠ b.question)
      [mkQAPair (JVal.jstr "q".toList) cexFile "X".toList] :=
  generate_questions_unique_questions_amended cexDoc cexFile
    (fun _ => [JItem.obj [(keyQuestion, JVal.jstr "q".toList),
      (keyAnswerLocation, JVal.jstr "X".toList)]]) 1
    [mkQAPair (JVal.jstr "q".toList) cexFile "X".toList]
    (fun k item hm => by
      rcases List.mem_singleton.mp hm with rfl
      decide)
    rfl

/-- A candidate item that is a dict whose `answer_location` value, when
present, is a string cannot make one iteration of `_extend_valid_pairs`
raise, so the whole pass succeeds. -/
lemma extendValidPairs_safe (doc fname : List Char) (target : Nat) :
    ∀ (items : List JItem) (vp : List QAPair),
      (∀ item ∈ items, safeGenItem item = true) →
      ∃ vp2, extendValidPairs doc fname target items vp = .ok vp2 := by
  intro items
  induction items with
  | nil => intro vp _; exact ⟨vp, rfl⟩
  | cons item rest ih =>
    intro vp hsafe
    have hsafe_head : safeGenItem item = true := hsafe item (List.mem_cons_self _ _)
    have hsafe_rest : ∀ it ∈ rest, safeGenItem it = true :=
      fun it hm => hsafe it (List.mem_cons_of_mem _ hm)
    by_cases hlen : target ≤ vp.length
    · exact ⟨vp, by simp [extendValidPairs, hlen]⟩
    · cases item with
      | scalar v => simp [safeGenItem] at hsafe_head
      | obj fields =>
        obtain ⟨t, ht⟩ :
            ∃ t, pyStrV ((dictGet fields keyAnswerLocation).getD (JVal.jstr [])) =
              .ok t := by
          unfold safeGenItem at hsafe_head
          match hd : dictGet fields keyAnswerLocation with
          | none => exact ⟨stripChars [], by simp [hd, pyStrV]⟩
          | some (JVal.jstr s) => exact ⟨stripChars s, by simp [hd, pyStrV]⟩
          | some (JVal.jnum x) => simp [hd] at hsafe_head
          | some (JVal.jbool b) => simp [hd] at hsafe_head
          | some JVal.jnull => simp [hd] at hsafe_head
        by_cases hae : t = ([] : List Char)
        · obtain ⟨vp2, hrec⟩ := ih vp hsafe_rest
          exact ⟨vp2, by simp [extendValidPairs, hlen, ht, hae, hrec]⟩
        · by_cases hch : extract_chunk_verbatim doc t = ([] : List Char)
          · obtain ⟨vp2, hrec⟩ := ih vp hsafe_rest
            exact ⟨vp2, by simp [extendValidPairs, hlen, ht, hae, hch, hrec]⟩
          · by_cases hdup : vp.any
                (fun q => pyEq q.question ((dictGet fields keyQuestion).getD JVal.jnull)) =
                  true
            · obtain ⟨vp2, hrec⟩ := ih vp hsafe_rest
              exact ⟨vp2, by simp [extendValidPairs, hlen, ht, hae, hch, hdup, hrec]⟩
            · obtain ⟨vp2, hrec⟩ := ih
                (vp ++ [mkQAPair ((dictGet fields keyQuestion).getD (JVal.jstr []))
                  fname (extract_chunk_verbatim doc t)]) hsafe_rest
              exact ⟨vp2, by simp [extendValidPairs, hlen, ht, hae, hch, hdup, hrec]⟩

/-- Under the same safety condition the whole retry loop succeeds. -/
lemma genLoopAux_safe (doc fname : List Char) (responses : Nat → List JItem)
    (target : Nat)
    (hsafe : ∀ k, ∀ item ∈ responses k, safeGenItem item = true) :
    ∀ (r attempt : Nat) (vp : List QAPair),
      ∃ n vp2, genLoopAux doc fname responses target r attempt vp = .ok (n, vp2) := by
  intro r
  induction r with
  | zero => intro attempt vp; exact ⟨attempt, vp, rfl⟩
  | succ r ih =>
    intro attempt vp
    by_cases hlen : vp.length < target
    · obtain ⟨vpm, hext⟩ := extendValidPairs_safe doc fname target
        (responses (attempt + 1)) vp (hsafe (attempt + 1))
      by_cases htar : target ≤ vpm.length
      · exact ⟨attempt + 1, vpm, by simp [genLoopAux, hlen, hext, htar]⟩
      · obtain ⟨n, vp2, hrec⟩ := ih (attempt + 1) vpm
        exact ⟨n, vp2, by simp [genLoopAux, hlen, hext, htar, hrec]⟩
    · exact ⟨attempt, vp, by simp [genLoopAux, hlen]⟩

/-- C4, counterexample to the claim as stated: a provider response whose
parsed candidate list contains a non-dict element (here the JSON number 1,
parsed from the response text `[1]`) makes the loop raise
`AttributeError` at `item.get`, instead of skipping the candidate. -/
theorem generate_questions_raises_cex :
    generate_questions cexDoc cexFile cexRaiseResponses 1 =
      .error (PyErr.attributeError strNoGetAttr) := rfl

/-- C4, amended: provided every parsed candidate item is a JSON object
whose `answer_location` value, when present, is a string, the generation
loop never raises: every validation failure is handled by skipping the
candidate, and when retries are exhausted the accumulated pairs are
returned. -/
theorem generate_questions_no_raise_amended (doc fname : List Char)
    (responses : Nat → List JItem) (target : Nat)
    (hsafe : ∀ k, ∀ item ∈ responses k, safeGenItem item = true) :
    ∃ vp, generate_questions doc fname responses target = .ok vp := by
  obtain ⟨n, vp2, h⟩ := genLoopAux_safe doc fname responses target hsafe
    (MAX_RETRY + 1) 0 []
  refine ⟨vp2, ?_⟩
  unfold generate_questions generate_questions_run
  rw [h]
  rfl

theorem generate_questions_no_raise_amended_witness :
    ∃ vp, generate_questions cexDoc cexFile
      (fun _ => [JItem.obj [(keyQuestion, JVal.jstr "q".toList),
        (keyAnswerLocation, JVal.jstr "X".toList)]]) 1 = .ok vp :=
  generate_questions_no_raise_amended cexDoc cexFile _ 1
    (fun k item hm => by
      rcases List.mem_singleton.mp hm with rfl
      decide)

/-! ### Scorer error handling and statistics -/

lemma evaluateItems_length (jp : List Char → Except (List Char) JItem)
    (ro : Nat → List Char) :
    ∀ (data : List EvalItem) (idx : Nat),
      (evaluateItems jp ro data idx).length = data.length := by
  intro data
  induction data with
  | nil => intro idx; rfl
  | cons item rest ih => intro idx; simp [evaluateItems, ih]

/-- C8: whenever obtaining a score fails — empty provider response,
unparseable verdict JSON, or any other per-item exception in the `try`
body — `process_item` annotates the item with the category `error`
(distinct from `incorrect`), the sentinel score 0, and the exception text
in `check`; and the batch loop processes every item, so one item's failure
never aborts the batch. -/
theorem process_item_error_handling :
    (∀ (jp : List Char → Except (List Char) JItem) (rt : List Char)
      (item : EvalItem) (e : PyErr), processItemTry jp rt item = .error e →
      process_item jp rt item =
        ⟨item.question, item.chunk, item.answer, JVal.jstr strErrorCat, JVal.jnum 0,
          JVal.jstr (pyErrText e)⟩) ∧
    (∀ jp : List Char → Except (List Char) JItem,
      call_llm jp [] = .error (.valueError strEmptyResponse)) ∧
    strErrorCat ≠ strIncorrect ∧
    (∀ (jp : List Char → Except (List Char) JItem) (ro : Nat → List Char)
      (data : List EvalItem), (run_evaluation jp ro data).length = data.length) ∧
    (∀ (jp : List Char → Except (List Char) JItem) (ro : Nat → List Char)
      (item : EvalItem) (rest : List EvalItem) (idx : Nat),
      evaluateItems jp ro (item :: rest) idx =
        process_item jp (ro idx) item :: evaluateItems jp ro rest (idx + 1)) := by
  refine ⟨?_, ?_, by decide, ?_, ?_⟩
  · intro jp rt item e he
    simp [process_item, he]
  · intro jp
    rfl
  · intro jp ro data
    exact evaluateItems_length jp ro data 1
  · intro jp ro item rest idx
    rfl

theorem process_item_error_handling_witness :
    process_item (fun _ => Except.error "boom".toList) "x".toList
      ⟨JVal.jnull, JVal.jnull, JVal.jnull, JVal.jstr [], JVal.jstr [], JVal.jstr []⟩ =
      ⟨JVal.jnull, JVal.jnull, JVal.jnull, JVal.jstr strErrorCat, JVal.jnum 0,
        JVal.jstr (pyErrText (.valueError (strInvalidJsonHead ++ "boom".toList)))⟩ :=
  process_item_error_handling.1 (fun _ => Except.error "boom".toList) "x".toList
    ⟨JVal.jnull, JVal.jnull, JVal.jnull, JVal.jstr [], JVal.jstr [], JVal.jstr []⟩
    (.valueError (strInvalidJsonHead ++ "boom".toList)) rfl

lemma pyEq_jstr_iff (v : JVal) (s : List Char) :
    pyEq v (JVal.jstr s) = true ↔ v = JVal.jstr s := by
  cases v <;> simp [pyEq]

/-- Bumping a string key changes only that key's tally under dict lookup. -/
lemma lookupCount_bump (c : List (JVal × Nat)) (s e : List Char) :
    lookupCount (bumpCount c (JVal.jstr s)) (JVal.jstr e) =
      lookupCount c (JVal.jstr e) + (if s = e then 1 else 0) := by
  induction c with
  | nil =>
    by_cases hse : s = e <;> simp [bumpCount, lookupCount, pyEq, hse]
  | cons kv rest ih =>
    obtain ⟨k, cnt⟩ := kv
    by_cases hks : pyEq k (JVal.jstr s) = true
    · have hk := (pyEq_jstr_iff k s).mp hks
      subst hk
      simp only [bumpCount, if_pos hks, lookupCount]
      by_cases hse : s = e
      · subst hse
        simp [pyEq]
      · have hne : pyEq (JVal.jstr s) (JVal.jstr e) = false := by simp [pyEq, hse]
        simp [lookupCount, hne, hse]
    · have hks' : pyEq k (JVal.jstr s) = false := Bool.eq_false_iff.mpr hks
      simp only [bumpCount, hks', Bool.false_eq_true, if_neg, lookupCount]
      by_cases hke : pyEq k (JVal.jstr e) = true
      · have hk := (pyEq_jstr_iff k e).mp hke
        have hse : s ≠ e := by
          intro hse
          subst hse
          rw [hk] at hks'
          simp [pyEq] at hks'
        simp [lookupCount, hke, hse]
      · have hke' : pyEq k (JVal.jstr e) = false := Bool.eq_false_iff.mpr hke
        simp [lookupCount, hke', ih]

/-- Fold invariant of the statistics loop: positive scores and only they
enter sum and count, and the `error` tally counts exactly the items whose
category is `error`. -/
lemma statsOfItems_spec :
    ∀ (data : List EvalItem) (acc : StatsAcc),
      (∀ it ∈ data, ∃ z : Int, it.score = JVal.jnum z) →
      (∀ it ∈ data, ∃ s : List Char, it.evaluate = JVal.jstr s) →
      ∃ acc2, statsOfItems data acc = .ok acc2 ∧
        acc2.score_sum = acc.score_sum +
          ((data.map itemScore).filter (fun z => 0 < z)).sum ∧
        acc2.score_count = acc.score_count +
          data.countP (fun it => decide (0 < itemScore it)) ∧
        lookupCount acc2.counts (JVal.jstr strErrorCat) =
          lookupCount acc.counts (JVal.jstr strErrorCat) +
            data.countP (fun it => decide (it.evaluate = JVal.jstr strErrorCat)) := by
  intro data
  induction data with
  | nil =>
    intro acc _ _
    exact ⟨acc, rfl, by simp, by simp, by simp⟩
  | cons item rest ih =>
    intro acc hs he
    obtain ⟨z, hz⟩ := hs item (List.mem_cons_self _ _)
    obtain ⟨s, hsv⟩ := he item (List.mem_cons_self _ _)
    have hs_rest : ∀ it ∈ rest, ∃ w : Int, it.score = JVal.jnum w :=
      fun it hm => hs it (List.mem_cons_of_mem _ hm)
    have he_rest : ∀ it ∈ rest, ∃ w : List Char, it.evaluate = JVal.jstr w :=
      fun it hm => he it (List.mem_cons_of_mem _ hm)
    have hscore : itemScore item = z := by simp [itemScore, hz]
    by_cases hpos : 0 < z
    · have hstep : statsStep acc item = .ok ⟨bumpCount acc.counts item.evaluate,
          acc.score_sum + z, acc.score_count + 1,
          if 1 ≤ z ∧ z ≤ 10 then bumpDist acc.dist z else acc.dist⟩ := by
        simp [statsStep, pyNum, hz, hpos]
      obtain ⟨acc2, hfold, hsum, hcount, herr⟩ := ih ⟨bumpCount acc.counts item.evaluate,
          acc.score_sum + z, acc.score_count + 1,
          if 1 ≤ z ∧ z ≤ 10 then bumpDist acc.dist z else acc.dist⟩ hs_rest he_rest
      refine ⟨acc2, by simp [statsOfItems, hstep, hfold], ?_, ?_, ?_⟩
      · rw [hsum]
        simp [hscore, hpos]
        omega
      · rw [hcount]
        simp [hscore, hpos]
        omega
      · rw [herr]
        simp only [hsv, lookupCount_bump, List.countP_cons]
        by_cases hse : s = strErrorCat <;> (simp [hse]; try omega)
    · have hstep : statsStep acc item = .ok ⟨bumpCount acc.counts item.evaluate,
          acc.score_sum, acc.score_count, acc.dist⟩ := by
        simp [statsStep, pyNum, hz, hpos]
      obtain ⟨acc2, hfold, hsum, hcount, herr⟩ := ih ⟨bumpCount acc.counts item.evaluate,
          acc.score_sum, acc.score_count, acc.dist⟩ hs_rest he_rest
      refine ⟨acc2, by simp [statsOfItems, hstep, hfold], ?_, ?_, ?_⟩
      · rw [hsum]
        simp [hscore, hpos]
      · rw [hcount]
        simp [hscore, hpos]
      · rw [herr]
        simp only [hsv, lookupCount_bump, List.countP_cons]
        by_cases hse : s = strErrorCat <;> (simp [hse]; try omega)

/-- C9: over any list of scored items (numeric scores, string categories)
the statistics pass succeeds, its average-score numerator and denominator
(`score_sum`, `score_count`) are computed only from items with `score > 0`
— the zero sentinel is excluded from both — and the `error` row of the
category tally counts exactly the items whose category is `error`. -/
theorem print_statistics_average_excludes_errors (data : List EvalItem)
    (hs : ∀ it ∈ data, ∃ z : Int, it.score = JVal.jnum z)
    (he : ∀ it ∈ data, ∃ s : List Char, it.evaluate = JVal.jstr s) :
    ∃ acc, print_statistics data = .ok acc ∧
      acc.score_sum = ((data.map itemScore).filter (fun z => 0 < z)).sum ∧
      acc.score_count = data.countP (fun it => decide (0 < itemScore it)) ∧
      lookupCount acc.counts (JVal.jstr strErrorCat) =
        data.countP (fun it => decide (it.evaluate = JVal.jstr strErrorCat)) := by
  obtain ⟨acc2, hfold, h1, h2, h3⟩ :=
    statsOfItems_spec data ⟨initCounts, 0, 0, initDist⟩ hs he
  have hinit : lookupCount initCounts (JVal.jstr strErrorCat) = 0 := rfl
  refine ⟨acc2, hfold, by simpa using h1, by simpa using h2, ?_⟩
  rw [h3]
  simp [hinit]

theorem print_statistics_average_excludes_errors_witness :
    ∃ acc, print_statistics
        [⟨JVal.jnull, JVal.jnull, JVal.jnull, JVal.jstr strCorrect, JVal.jnum 8,
          JVal.jstr []⟩,
         ⟨JVal.jnull, JVal.jnull, JVal.jnull, JVal.jstr strErrorCat, JVal.jnum 0,
          JVal.jstr []⟩] = .ok acc ∧
      acc.score_sum = (([8, 0] : List Int).filter (fun z => 0 < z)).sum ∧
      acc.score_count = 1 ∧
      lookupCount acc.counts (JVal.jstr strErrorCat) = 1 := by
  obtain ⟨acc, h0, h1, h2, h3⟩ := print_statistics_average_excludes_errors
    [⟨JVal.jnull, JVal.jnull, JVal.jnull, JVal.jstr strCorrect, JVal.jnum 8,
      JVal.jstr []⟩,
     ⟨JVal.jnull, JVal.jnull, JVal.jnull, JVal.jstr strErrorCat, JVal.jnum 0,
      JVal.jstr []⟩]
    (by
      intro it hm
      rcases List.mem_cons.mp hm with rfl | hm2
      · exact ⟨8, rfl⟩
      · rcases List.mem_singleton.mp hm2 with rfl
        exact ⟨0, rfl⟩)
    (by
      intro it hm
      rcases List.mem_cons.mp hm with rfl | hm2
      · exact ⟨strCorrect, rfl⟩
      · rcases List.mem_singleton.mp hm2 with rfl
        exact ⟨strErrorCat, rfl⟩)
  refine ⟨acc, h0, ?_, ?_, ?_⟩
  · rw [h1]; rfl
  · rw [h2]; rfl
  · rw [h3]; rfl

end DocQA
